import Mathlib

/-!
Shallow embedding of the core of the LSM storage engine (`src/`):
blocks and their iterator (`src/block/iterator.rs`), the k-way merge
iterator (`src/iterator/merge_iterator.rs`), memtables and the engine
coordinator (`src/mem_table.rs`, `src/lsm_storage.rs`), the tombstone
filter and fused guard (`src/lsm_iterator.rs`), and sorted-table opening
(`src/table.rs`).  Byte strings are `List Nat`; machine-integer
truncation is written out explicitly where the code relies on it.
-/

namespace LsmDB

/-- Lexicographic comparison of byte strings, the semantics of Rust's
`Ord` on `&[u8]` used by `self.key().cmp(key)` and the heap ordering. -/
def lexCmp : List Nat → List Nat → Ordering
  | [], [] => .eq
  | [], _ :: _ => .lt
  | _ :: _, [] => .gt
  | a :: as, b :: bs =>
    if a < b then .lt else if b < a then .gt else lexCmp as bs

/-- Strict lexicographic order on byte strings. -/
def lexLt (a b : List Nat) : Prop := lexCmp a b = .lt

instance (a b : List Nat) : Decidable (lexLt a b) := by
  unfold lexLt; infer_instance

theorem lexCmp_eq_iff (a b : List Nat) : lexCmp a b = .eq ↔ a = b := by
  induction a generalizing b with
  | nil => cases b <;> simp [lexCmp]
  | cons x xs ih =>
    cases b with
    | nil => simp [lexCmp]
    | cons y ys =>
      by_cases hxy : x < y
      · simp [lexCmp, hxy]
        omega
      · by_cases hyx : y < x
        · simp [lexCmp, hxy, hyx]
          omega
        · have hxyeq : x = y := by omega
          simp [lexCmp, hxy, hyx, hxyeq, ih]

theorem lexCmp_self (a : List Nat) : lexCmp a a = .eq :=
  (lexCmp_eq_iff a a).mpr rfl

theorem lexLt_irrefl (a : List Nat) : ¬ lexLt a a := by
  simp [lexLt, lexCmp_self]

theorem lexCmp_gt_iff (a b : List Nat) : lexCmp a b = .gt ↔ lexCmp b a = .lt := by
  induction a generalizing b with
  | nil => cases b <;> simp [lexCmp]
  | cons x xs ih =>
    cases b with
    | nil => simp [lexCmp]
    | cons y ys =>
      by_cases hxy : x < y
      · have hyx : ¬ y < x := by omega
        simp [lexCmp, hxy, hyx]
      · by_cases hyx : y < x
        · simp [lexCmp, hxy, hyx]
        · simp [lexCmp, hxy, hyx, ih]

theorem lexLt_trans {a b c : List Nat} (hab : lexLt a b) (hbc : lexLt b c) :
    lexLt a c := by
  induction a generalizing b c with
  | nil =>
    cases c with
    | nil =>
      cases b with
      | nil => exact absurd hab (lexLt_irrefl [])
      | cons y ys => simp [lexLt, lexCmp] at hbc
    | cons z zs => simp [lexLt, lexCmp]
  | cons x xs ih =>
    cases b with
    | nil => simp [lexLt, lexCmp] at hab
    | cons y ys =>
      cases c with
      | nil => simp [lexLt, lexCmp] at hbc
      | cons z zs =>
        simp only [lexLt, lexCmp] at hab hbc ⊢
        by_cases hxy : x < y
        · by_cases hyz : y < z
          · have hxz : x < z := by omega
            simp [hxz]
          · by_cases hzy : z < y
            · simp [hyz, hzy] at hbc
            · have hyzeq : y = z := by omega
              subst hyzeq
              simp [hxy]
        · by_cases hyx : y < x
          · simp [hxy, hyx] at hab
          · have hxyeq : x = y := by omega
            subst hxyeq
            by_cases hyz : x < z
            · simp [hyz]
            · by_cases hzy : z < x
              · simp [hyz, hzy] at hbc
              · simp [hxy, hyx] at hab
                simp [hyz, hzy] at hbc ⊢
                exact ih hab hbc

theorem lexLt_asymm {a b : List Nat} (h : lexLt a b) : ¬ lexLt b a := by
  intro h'
  exact lexLt_irrefl a (lexLt_trans h h')

/-- Exactly one of `lt`, `eq`, `gt` holds; used to turn a failed `lt`/`gt`
test in the binary search into an equality. -/
theorem lexCmp_trichotomy (a b : List Nat) :
    lexCmp a b = .lt ∨ lexCmp a b = .eq ∨ lexCmp a b = .gt := by
  cases h : lexCmp a b
  · exact Or.inl rfl
  · exact Or.inr (Or.inl rfl)
  · exact Or.inr (Or.inr rfl)

/-! ## Block and BlockIterator (`src/block/iterator.rs`)

The `Block` struct itself lives in `src/block.rs`, which is not part of
the provided sources; its two fields `data` and `offsets` are taken
exactly as the iterator code uses them (spec section 3: entry bytes plus
a trailing offset array). -/

/-- `SIZEOF_U16` from `src/block.rs` as used by the iterator. -/
def SIZEOF_U16 : Nat := 2

/-- Modelled from the spec: the `Block` struct of `src/block.rs` (absent
from the provided sources) with the two fields the iterator reads:
the raw entry bytes and the entry-start offsets. -/
structure Block where
  data : List Nat
  offsets : List Nat
deriving DecidableEq, Repr

/-- The `BlockIterator` struct of `src/block/iterator.rs`. -/
structure BlockIterator where
  block : Block
  key : List Nat
  value_range : Nat × Nat
  idx : Nat
deriving DecidableEq, Repr

/-- Big-endian `u16` read at the head of a buffer, the semantics of
`bytes::Buf::get_u16` used by `seek_to_offset`. -/
def be16At (data : List Nat) : Nat := data.getD 0 0 * 256 + data.getD 1 0

/-- `BlockIterator::new`. -/
def BlockIterator.new (block : Block) : BlockIterator :=
  { block := block, value_range := (0, 0), idx := 0, key := [] }

/-- `BlockIterator::seek_to_offset`: decode the entry at byte `offset`
(2-byte key length, key bytes, 2-byte value length) into the cursor's
`key` and `value_range`. -/
def BlockIterator.seek_to_offset (it : BlockIterator) (offset : Nat) : BlockIterator :=
  let data_from_start := it.block.data.drop offset
  let key_len := be16At data_from_start
  let key := (data_from_start.drop SIZEOF_U16).take key_len
  let value_len := be16At ((data_from_start.drop SIZEOF_U16).drop key_len)
  let value_offset_begin := offset + SIZEOF_U16 + key_len + SIZEOF_U16
  let value_offset_end := value_offset_begin + value_len
  { it with key := key, value_range := (value_offset_begin, value_offset_end) }

/-- `BlockIterator::seek_to`: position the cursor's key/value on entry
`idx`, or clear them when `idx` is out of range.  Note it does not
write the `idx` field. -/
def BlockIterator.seek_to (it : BlockIterator) (idx : Nat) : BlockIterator :=
  if idx ≥ it.block.offsets.length then
    { it with key := [], value_range := (0, 0) }
  else
    it.seek_to_offset (it.block.offsets.getD idx 0)

/-- `BlockIterator::is_valid`. -/
def BlockIterator.is_valid (it : BlockIterator) : Bool := !it.key.isEmpty

/-- `BlockIterator::seek_to_first`. -/
def BlockIterator.seek_to_first (it : BlockIterator) : BlockIterator := it.seek_to 0

/-- `BlockIterator::create_and_seek_to_first`. -/
def BlockIterator.create_and_seek_to_first (block : Block) : BlockIterator :=
  (BlockIterator.new block).seek_to_first

/-- The binary-search loop of `BlockIterator::seek_to_key` (the `while
low < high` loop followed by the final `seek_to(low)`).  The source
asserts `is_valid` after each probe; under the sortedness/non-emptiness
hypotheses of the theorems that assert always holds. -/
def BlockIterator.seek_to_key_loop (it : BlockIterator) (k : List Nat) (low high : Nat) :
    BlockIterator :=
  if h : low < high then
    let mid := low + (high - low) / 2
    let it' := it.seek_to mid
    match lexCmp it'.key k with
    | .lt => it'.seek_to_key_loop k (mid + 1) high
    | .gt => it'.seek_to_key_loop k low mid
    | .eq => it'
  else
    it.seek_to low
termination_by high - low
decreasing_by
  · omega
  · have : low + (high - low) / 2 < high := by omega
    omega

/-- `BlockIterator::seek_to_key`. -/
def BlockIterator.seek_to_key (it : BlockIterator) (k : List Nat) : BlockIterator :=
  it.seek_to_key_loop k 0 it.block.offsets.length

/-- `BlockIterator::create_and_seek_to_key`. -/
def BlockIterator.create_and_seek_to_key (block : Block) (k : List Nat) : BlockIterator :=
  (BlockIterator.new block).seek_to_key k

/-- `BlockIterator::value`: the byte slice `data[value_range.0..value_range.1]`. -/
def BlockIterator.value (it : BlockIterator) : List Nat :=
  (it.block.data.drop it.value_range.1).take (it.value_range.2 - it.value_range.1)

/-- `BlockIterator::next`: bump the internal index and seek to it. -/
def BlockIterator.next (it : BlockIterator) : BlockIterator :=
  { it with idx := it.idx + 1 }.seek_to (it.idx + 1)

/-- Derived reading of the block's content: the key that `seek_to i`
would decode for entry `i`. -/
def keyAt (b : Block) (i : Nat) : List Nat :=
  let rest := b.data.drop (b.offsets.getD i 0)
  (rest.drop SIZEOF_U16).take (be16At rest)

/-- The sequence of keys stored in a block, as decoded entry by entry. -/
def keysOf (b : Block) : List (List Nat) :=
  (List.range b.offsets.length).map (keyAt b)

/-! ## Linear-scan lower bound and correctness of `seek_to_key` -/

/-- Linear scan: the index of the first key `≥ k` in `keys` (the length
of the longest prefix of keys `< k`).  This is the position the spec
says `seek_to_key` must land on. -/
def lowerBound (k : List Nat) : List (List Nat) → Nat
  | [] => 0
  | x :: xs => if lexLt x k then lowerBound k xs + 1 else 0

theorem lowerBound_le_length (k : List Nat) (keys : List (List Nat)) :
    lowerBound k keys ≤ keys.length := by
  induction keys with
  | nil => simp [lowerBound]
  | cons x xs ih =>
    by_cases h : lexLt x k <;> simp [lowerBound, h] <;> omega

theorem lowerBound_lt_of_mem_lt (k : List Nat) (keys : List (List Nat))
    (i : Nat) (hi : i < lowerBound k keys) : lexLt (keys.getD i []) k := by
  induction keys generalizing i with
  | nil => simp [lowerBound] at hi
  | cons x xs ih =>
    by_cases h : lexLt x k
    · cases i with
      | zero => simpa using h
      | succ j =>
        simp [lowerBound, h] at hi
        simpa using ih j (by omega)
    · simp [lowerBound, h] at hi

/-- Characterization used to pin the binary search's answer: a bound `m`
whose prefix is `< k` and whose own key (when it exists) is not `< k`
is exactly the lower bound. -/
theorem lowerBound_eq_of (k : List Nat) (keys : List (List Nat)) (m : Nat)
    (hm : m ≤ keys.length)
    (hlow : ∀ i, i < m → lexLt (keys.getD i []) k)
    (hhigh : m < keys.length → ¬ lexLt (keys.getD m []) k) :
    lowerBound k keys = m := by
  induction keys generalizing m with
  | nil => simp at hm; simp [lowerBound, hm]
  | cons x xs ih =>
    cases m with
    | zero =>
      have hx : ¬ lexLt x k := by simpa using hhigh (by simp)
      simp [lowerBound, hx]
    | succ m' =>
      have hx : lexLt x k := by simpa using hlow 0 (by omega)
      simp only [lowerBound, hx, if_pos]
      have := ih m' (by simpa using hm)
        (fun i hi => by simpa using hlow (i + 1) (by omega))
        (fun hlt => by simpa using hhigh (by simpa using hlt))
      omega

theorem keysOf_getD (b : Block) (i : Nat) (hi : i < b.offsets.length) :
    (keysOf b).getD i [] = keyAt b i := by
  unfold keysOf
  rw [List.getD_eq_getElem?_getD]
  simp [List.getElem?_map, List.getElem?_range, hi]

theorem keysOf_length (b : Block) : (keysOf b).length = b.offsets.length := by
  simp [keysOf]

/-- `seek_to` overwrites the cursor's key and value range from the block
and the index alone, so its result only depends on `block` and `idx`. -/
theorem seek_to_canon (it : BlockIterator) (b : Block) (i : Nat)
    (hb : it.block = b) (hidx : it.idx = 0) :
    it.seek_to i = (BlockIterator.new b).seek_to i := by
  cases it with
  | mk blk key vr idx =>
    simp only at hb hidx
    subst hb; subst hidx
    by_cases h : i ≥ blk.offsets.length <;>
      simp [BlockIterator.seek_to, BlockIterator.seek_to_offset, BlockIterator.new, h]

theorem seek_to_block (it : BlockIterator) (i : Nat) : (it.seek_to i).block = it.block := by
  by_cases h : i ≥ it.block.offsets.length <;>
    simp [BlockIterator.seek_to, BlockIterator.seek_to_offset, h]

theorem seek_to_idx (it : BlockIterator) (i : Nat) : (it.seek_to i).idx = it.idx := by
  by_cases h : i ≥ it.block.offsets.length <;>
    simp [BlockIterator.seek_to, BlockIterator.seek_to_offset, h]

theorem seek_to_key_of_lt (it : BlockIterator) (i : Nat)
    (hi : i < it.block.offsets.length) : (it.seek_to i).key = keyAt it.block i := by
  simp [BlockIterator.seek_to, BlockIterator.seek_to_offset, keyAt, Nat.not_le.mpr hi,
    SIZEOF_U16]

/-- Strict sortedness of the stored keys gives pairwise order by index. -/
theorem keysOf_pairwise (b : Block) (hsorted : List.Pairwise lexLt (keysOf b)) :
    ∀ i j, i < j → j < b.offsets.length → lexLt (keyAt b i) (keyAt b j) := by
  intro i j hij hj
  have hi : i < (keysOf b).length := by simpa [keysOf_length] using lt_trans hij hj
  have hj' : j < (keysOf b).length := by simpa [keysOf_length] using hj
  have := (List.pairwise_iff_get.mp hsorted) ⟨i, hi⟩ ⟨j, hj'⟩ hij
  have hgi : (keysOf b).get ⟨i, hi⟩ = keyAt b i := by
    rw [List.get_eq_getElem]
    simp [keysOf, List.getElem_map, List.getElem_range]
  have hgj : (keysOf b).get ⟨j, hj'⟩ = keyAt b j := by
    rw [List.get_eq_getElem]
    simp [keysOf, List.getElem_map, List.getElem_range]
  rwa [hgi, hgj] at this

/-- Main loop lemma: under the invariants of lower-bound binary search,
the loop ends exactly where a linear scan would. -/
theorem seek_to_key_loop_eq (b : Block) (k : List Nat)
    (hsorted : List.Pairwise lexLt (keysOf b))
    (low high : Nat) (it : BlockIterator) (hb : it.block = b) (hidx : it.idx = 0)
    (hlh : low ≤ high) (hhn : high ≤ b.offsets.length)
    (hlow : ∀ i, i < low → lexLt (keyAt b i) k)
    (hhigh : ∀ i, high ≤ i → i < b.offsets.length → lexLt k (keyAt b i)) :
    it.seek_to_key_loop k low high =
      (BlockIterator.new b).seek_to (lowerBound k (keysOf b)) := by
  have hpair := keysOf_pairwise b hsorted
  rw [BlockIterator.seek_to_key_loop]
  by_cases h : low < high
  · simp only [h, dif_pos]
    have hmidlt : low + (high - low) / 2 < b.offsets.length := by omega
    set mid := low + (high - low) / 2 with hmid
    have hkey : (it.seek_to mid).key = keyAt b mid := by
      rw [← hb] at hmidlt
      rw [seek_to_key_of_lt it mid hmidlt, hb]
    have hb' : (it.seek_to mid).block = b := by rw [seek_to_block, hb]
    have hidx' : (it.seek_to mid).idx = 0 := by rw [seek_to_idx, hidx]
    rcases lexCmp_trichotomy (keyAt b mid) k with hc | hc | hc
    · rw [hkey, hc]
      exact seek_to_key_loop_eq b k hsorted (mid + 1) high _ hb' hidx' (by omega) hhn
        (fun i hi => by
          rcases Nat.lt_or_ge i mid with hlt | hge
          · exact lexLt_trans (hpair i mid hlt hmidlt) hc
          · have : i = mid := by omega
            subst this; exact hc)
        hhigh
    · have hkeq : keyAt b mid = k := (lexCmp_eq_iff _ _).mp hc
      rw [hkey, hc]
      have hlb : lowerBound k (keysOf b) = mid := by
        apply lowerBound_eq_of
        · rw [keysOf_length]; omega
        · intro i hi
          rw [keysOf_getD b i (by omega)]
          rcases Nat.lt_or_ge i low with hlt | hge
          · exact hlow i hlt
          · have := hpair i mid (by omega) hmidlt
            rwa [hkeq] at this
        · intro hlt
          rw [keysOf_length] at hlt
          rw [keysOf_getD b mid hlt, hkeq]
          exact lexLt_irrefl k
      rw [hlb]
      exact seek_to_canon it b mid hb hidx
    · rw [hkey, hc]
      exact seek_to_key_loop_eq b k hsorted low mid _ hb' hidx' (by omega) (by omega) hlow
        (fun i hi hin => by
          rcases Nat.lt_or_ge mid i with hlt | hge
          · exact lexLt_trans ((lexCmp_gt_iff _ _).mp hc) (hpair mid i hlt hin)
          · have : i = mid := by omega
            subst this; exact (lexCmp_gt_iff _ _).mp hc)
  · simp only [h, dif_neg, not_false_iff]
    have hlb : lowerBound k (keysOf b) = low := by
      apply lowerBound_eq_of
      · rw [keysOf_length]; omega
      · intro i hi
        rw [keysOf_getD b i (by omega)]
        exact hlow i hi
      · intro hlt
        rw [keysOf_length] at hlt
        rw [keysOf_getD b low hlt]
        exact lexLt_asymm (hhigh low (by omega) hlt)
    rw [hlb]
    exact seek_to_canon it b low hb hidx
termination_by high - low
decreasing_by
  · omega
  · omega

theorem lowerBound_not_lt (k : List Nat) (keys : List (List Nat))
    (h : lowerBound k keys < keys.length) :
    ¬ lexLt (keys.getD (lowerBound k keys) []) k := by
  induction keys with
  | nil => simp at h
  | cons x xs ih =>
    by_cases hx : lexLt x k
    · simp only [lowerBound, hx, if_pos] at h ⊢
      simpa using ih (by simpa using h)
    · simpa [lowerBound, hx] using hx

theorem keyAt_mem_keysOf (b : Block) (i : Nat) (hi : i < b.offsets.length) :
    keyAt b i ∈ keysOf b := by
  unfold keysOf
  exact List.mem_map_of_mem (keyAt b) (List.mem_range.mpr hi)

theorem mem_keysOf_iff (b : Block) (x : List Nat) :
    x ∈ keysOf b ↔ ∃ i, i < b.offsets.length ∧ keyAt b i = x := by
  unfold keysOf
  constructor
  · intro hx
    rcases List.mem_map.mp hx with ⟨i, hi, hix⟩
    exact ⟨i, List.mem_range.mp hi, hix⟩
  · rintro ⟨i, hi, hix⟩
    exact hix ▸ keyAt_mem_keysOf b i hi

/-- C8.  For every block whose decoded entries have non-empty, strictly
lexicographically sorted keys and every probe key `k`,
`BlockIterator::seek_to_key(k)` leaves the cursor exactly where a
linear lower-bound scan would: positioned (key and value range) on the
first entry whose key is `≥ k`, and invalid precisely when `k` is
greater than every stored key. -/
theorem seek_to_key_agrees_with_linear_scan (b : Block) (k : List Nat)
    (hne : ∀ x ∈ keysOf b, x ≠ [])
    (hsorted : List.Pairwise lexLt (keysOf b)) :
    BlockIterator.create_and_seek_to_key b k =
        (BlockIterator.new b).seek_to (lowerBound k (keysOf b))
      ∧ ((BlockIterator.create_and_seek_to_key b k).is_valid = false ↔
        ∀ x ∈ keysOf b, lexLt x k)
      ∧ (lowerBound k (keysOf b) < b.offsets.length →
        (BlockIterator.create_and_seek_to_key b k).key =
          keyAt b (lowerBound k (keysOf b))) := by
  have hmain : BlockIterator.create_and_seek_to_key b k =
      (BlockIterator.new b).seek_to (lowerBound k (keysOf b)) := by
    unfold BlockIterator.create_and_seek_to_key BlockIterator.seek_to_key
    exact seek_to_key_loop_eq b k hsorted 0 b.offsets.length (BlockIterator.new b)
      rfl rfl (by omega) (by omega) (fun i hi => absurd hi (by omega))
      (fun i hi hin => absurd hin (by omega))
  refine ⟨hmain, ?_, ?_⟩
  · rw [hmain]
    by_cases hlb : lowerBound k (keysOf b) < b.offsets.length
    · have hkey : ((BlockIterator.new b).seek_to (lowerBound k (keysOf b))).key =
          keyAt b (lowerBound k (keysOf b)) := seek_to_key_of_lt _ _ hlb
      have hnemp : keyAt b (lowerBound k (keysOf b)) ≠ [] :=
        hne _ (keyAt_mem_keysOf b _ hlb)
      constructor
      · intro hval
        exfalso
        simp [BlockIterator.is_valid, hkey, hnemp] at hval
      · intro hall
        exfalso
        have := hall _ (keyAt_mem_keysOf b _ hlb)
        have hnot := lowerBound_not_lt k (keysOf b) (by rwa [keysOf_length])
        rw [keysOf_getD b _ hlb] at hnot
        exact hnot this
    · have hkey : ((BlockIterator.new b).seek_to (lowerBound k (keysOf b))).key = [] := by
        simp [BlockIterator.seek_to, BlockIterator.new, Nat.not_lt.mp hlb]
      constructor
      · intro _ x hx
        rcases (mem_keysOf_iff b x).mp hx with ⟨i, hi, hix⟩
        have := lowerBound_lt_of_mem_lt k (keysOf b) i (by omega)
        rwa [keysOf_getD b i hi, hix] at this
      · intro _
        simp [BlockIterator.is_valid, hkey]
  · intro hlb
    rw [hmain]
    exact seek_to_key_of_lt _ _ hlb

/-- Concrete two-entry block for the C8 witness: entries
`([1] ↦ [7])` and `([2] ↦ [8])` in the on-disk layout
`[2B key_len][key][2B val_len][val]` with offsets `[0, 6]`. -/
def demoBlock : Block :=
  { data := [0, 1, 1, 0, 1, 7, 0, 1, 2, 0, 1, 8], offsets := [0, 6] }

/-- Witness for C8 at a concrete block and probe key. -/
theorem seek_to_key_agrees_with_linear_scan_witness :
    (BlockIterator.create_and_seek_to_key demoBlock [2]).key = keyAt demoBlock 1 :=
  (seek_to_key_agrees_with_linear_scan demoBlock [2]
    (by decide) (by decide)).2.2 (by decide)

/-- Iterate `BlockIterator::next` `n` times. -/
def nextN : Nat → BlockIterator → BlockIterator
  | 0, it => it
  | n + 1, it => nextN n it.next

theorem seek_to_key_loop_idx (it : BlockIterator) (k : List Nat) (low high : Nat) :
    (it.seek_to_key_loop k low high).idx = it.idx := by
  rw [BlockIterator.seek_to_key_loop]
  by_cases h : low < high
  · simp only [h, dif_pos]
    rcases hc : lexCmp ((it.seek_to (low + (high - low) / 2)).key) k with _ | _ | _
    · simp only [hc]
      rw [seek_to_key_loop_idx, seek_to_idx]
    · simp only [hc]
      rw [seek_to_idx]
    · simp only [hc]
      rw [seek_to_key_loop_idx, seek_to_idx]
  · simp only [h, dif_neg, not_false_iff]
    exact seek_to_idx it low
termination_by high - low
decreasing_by
  · omega
  · omega

theorem seek_to_key_loop_block (it : BlockIterator) (k : List Nat) (low high : Nat) :
    (it.seek_to_key_loop k low high).block = it.block := by
  rw [BlockIterator.seek_to_key_loop]
  by_cases h : low < high
  · simp only [h, dif_pos]
    rcases hc : lexCmp ((it.seek_to (low + (high - low) / 2)).key) k with _ | _ | _
    · simp only [hc]
      rw [seek_to_key_loop_block, seek_to_block]
    · simp only [hc]
      rw [seek_to_block]
    · simp only [hc]
      rw [seek_to_key_loop_block, seek_to_block]
  · simp only [h, dif_neg, not_false_iff]
    exact seek_to_block it low
termination_by high - low
decreasing_by
  · omega
  · omega

/-- `next` overwrites key and value range entirely, so its result
depends only on the block and the internal index. -/
theorem next_det (it it' : BlockIterator) (hb : it.block = it'.block)
    (hidx : it.idx = it'.idx) : it.next = it'.next := by
  cases it with
  | mk blk key vr idx =>
    cases it' with
    | mk blk' key' vr' idx' =>
      simp only at hb hidx
      subst hb; subst hidx
      by_cases h : idx + 1 ≥ blk.offsets.length <;>
        simp [BlockIterator.next, BlockIterator.seek_to, BlockIterator.seek_to_offset, h]

theorem nextN_idx (n : Nat) (it : BlockIterator) : (nextN n it).idx = it.idx + n := by
  induction n generalizing it with
  | zero => simp [nextN]
  | succ m ih =>
    rw [nextN, ih]
    have : it.next.idx = it.idx + 1 := by
      rw [BlockIterator.next, seek_to_idx]
    omega

/-- C10.  `seek_to_key`/`seek_to_first` reposition the cursor but do not
update the internal `idx` counter, so the entry reached by the `n`-th
`next()` call is determined solely by `n`: after `create_and_seek_to_key`
lands anywhere, the iterators created by seeking to a key and by seeking
to the first entry coincide after the first `next()`, and after `n + 1`
calls the internal index is `n + 1`. -/
theorem next_ignores_seek_position (b : Block) (k : List Nat) (n : Nat) :
    (BlockIterator.create_and_seek_to_key b k).idx = 0
      ∧ nextN (n + 1) (BlockIterator.create_and_seek_to_key b k) =
        nextN (n + 1) (BlockIterator.create_and_seek_to_first b)
      ∧ (nextN (n + 1) (BlockIterator.create_and_seek_to_key b k)).idx = n + 1 := by
  have hidx : (BlockIterator.create_and_seek_to_key b k).idx = 0 := by
    unfold BlockIterator.create_and_seek_to_key BlockIterator.seek_to_key
    rw [seek_to_key_loop_idx]
    rfl
  have hblk : (BlockIterator.create_and_seek_to_key b k).block = b := by
    unfold BlockIterator.create_and_seek_to_key BlockIterator.seek_to_key
    rw [seek_to_key_loop_block]
    rfl
  have hidx' : (BlockIterator.create_and_seek_to_first b).idx = 0 := by
    unfold BlockIterator.create_and_seek_to_first BlockIterator.seek_to_first
    rw [seek_to_idx]
    rfl
  have hblk' : (BlockIterator.create_and_seek_to_first b).block = b := by
    unfold BlockIterator.create_and_seek_to_first BlockIterator.seek_to_first
    rw [seek_to_block]
    rfl
  have hnext : (BlockIterator.create_and_seek_to_key b k).next =
      (BlockIterator.create_and_seek_to_first b).next :=
    next_det _ _ (by rw [hblk, hblk']) (by rw [hidx, hidx'])
  refine ⟨hidx, ?_, ?_⟩
  · rw [nextN, nextN, hnext]
  · rw [nextN_idx, hidx]
    omega

/-! ## StorageIterator interface and MergeIterator
(`src/iterator.rs`, `src/iterator/merge_iterator.rs`)

`StorageIterator` is a Rust trait; here it is a record of operations
over an iterator state type.  `next` may fail (`anyhow::Result`),
modelled as `Except String`. -/

structure StorageIterOps (σ : Type) where
  is_valid : σ → Bool
  key : σ → List Nat
  value : σ → List Nat
  next : σ → Except String σ

/-- `HeapWrapper(pub usize, Box<T>)`: an iterator tagged with its source
index (lower index = more recently written source). -/
structure HeapWrapper (σ : Type) where
  idx : Nat
  iter : σ

/-- The heap priority from `impl Ord for HeapWrapper` (comparison on
`key`, ties on the source index, both reversed so the binary heap
surfaces the smallest key and, among equal keys, the smallest index):
`a` is popped before `b` iff `a`'s key is smaller, or equal with a
smaller source index. -/
def heapBefore {σ : Type} (O : StorageIterOps σ) (a b : HeapWrapper σ) : Bool :=
  match lexCmp (O.key a.iter) (O.key b.iter) with
  | .lt => true
  | .gt => false
  | .eq => a.idx < b.idx

/-- `BinaryHeap::push`, with the heap modelled by its observable
behaviour: the list of wrappers sorted in pop order (the order is total
because source indices are distinct). -/
def heapPush {σ : Type} (O : StorageIterOps σ) (w : HeapWrapper σ) :
    List (HeapWrapper σ) → List (HeapWrapper σ)
  | [] => [w]
  | x :: xs => if heapBefore O w x then w :: x :: xs else x :: heapPush O w xs

/-- The `MergeIterator` struct: remaining heap plus the current wrapper. -/
structure MergeIterator (σ : Type) where
  iters : List (HeapWrapper σ)
  current : Option (HeapWrapper σ)

/-- `MergeIterator::create`: drop exhausted sources; if every source is
invalid keep the last one as an invalid placeholder (index 0), else pop
the heap top as `current`. -/
def mergeCreate {σ : Type} (O : StorageIterOps σ) (iters : List σ) : MergeIterator σ :=
  match iters with
  | [] => { iters := [], current := none }
  | i0 :: rest =>
    if (i0 :: rest).all (fun x => !(O.is_valid x)) then
      { iters := [], current := some ⟨0, (i0 :: rest).getLast (by simp)⟩ }
    else
      let heap := ((i0 :: rest).enum.filter (fun p => O.is_valid p.2)).foldl
        (fun h p => heapPush O ⟨p.1, p.2⟩ h) []
      match heap with
      | [] => { iters := [], current := none }
      | c :: hs => { iters := hs, current := some c }

/-- The `while let Some(inner_iter) = self.iters.peek_mut()` loop of
`MergeIterator::next`: advance every heap-top iterator whose key equals
the current key, removing it when it errors (propagating the error) or
goes invalid, re-sifting it otherwise; stop at the first top with a
different key.  `fuel` bounds the loop (always sufficient for finite
ascending sources). -/
def skipDups {σ : Type} (O : StorageIterOps σ) (curKey : List Nat) :
    Nat → List (HeapWrapper σ) → Except String (List (HeapWrapper σ))
  | 0, _ => .error "skip loop fuel exhausted"
  | _ + 1, [] => .ok []
  | fuel + 1, w :: rest =>
    if lexCmp (O.key w.iter) curKey = .eq then
      match O.next w.iter with
      | .error e => .error e
      | .ok it' =>
        if O.is_valid it' then skipDups O curKey fuel (heapPush O ⟨w.idx, it'⟩ rest)
        else skipDups O curKey fuel rest
    else .ok (w :: rest)

/-- `MergeIterator::next`.  After skipping equal-key duplicates it
advances `current`; if `current` goes invalid it is replaced by the next
heap pop.  Note the source has no final compare-and-swap of the advanced
`current` with the heap top. -/
def mergeNext {σ : Type} (O : StorageIterOps σ) (fuel : Nat) (m : MergeIterator σ) :
    Except String (MergeIterator σ) :=
  match m.current with
  | none => .error "current unwrap failed"
  | some cur => do
    let heap ← skipDups O (O.key cur.iter) fuel m.iters
    match O.next cur.iter with
    | .error e => .error e
    | .ok cur' =>
      if O.is_valid cur' then
        .ok { iters := heap, current := some ⟨cur.idx, cur'⟩ }
      else
        match heap with
        | [] => .ok { iters := [], current := some ⟨cur.idx, cur'⟩ }
        | c :: hs => .ok { iters := hs, current := some c }

/-- `MergeIterator::key` (unwraps `current`; `[]` stands for the
unreachable no-current case, never hit in the runs below). -/
def mergeKey {σ : Type} (O : StorageIterOps σ) (m : MergeIterator σ) : List Nat :=
  match m.current with
  | some c => O.key c.iter
  | none => []

/-- `MergeIterator::value`. -/
def mergeValue {σ : Type} (O : StorageIterOps σ) (m : MergeIterator σ) : List Nat :=
  match m.current with
  | some c => O.value c.iter
  | none => []

/-- `MergeIterator::is_valid`. -/
def mergeIsValid {σ : Type} (O : StorageIterOps σ) (m : MergeIterator σ) : Bool :=
  match m.current with
  | some c => O.is_valid c.iter
  | none => false

/-! ## MemTableIterator (`src/mem_table.rs`)

The self-referential skip-map range iterator is modelled by the current
`item` plus the list of remaining entries of the (sorted) range. -/

structure MemTableIterator where
  item : List Nat × List Nat
  rest : List (List Nat × List Nat)
deriving DecidableEq, Repr

/-- `MemTableIterator::next` (via `entry_to_item`): pull the next entry
of the range, or the `(empty, empty)` sentinel when exhausted. -/
def mtNext (it : MemTableIterator) : MemTableIterator :=
  match it.rest with
  | [] => { item := ([], []), rest := [] }
  | e :: rs => { item := e, rest := rs }

/-- The `StorageIterator` impl for `MemTableIterator`: valid while the
current key is non-empty; `next` never errors. -/
def mtIterOps : StorageIterOps MemTableIterator :=
  { is_valid := fun it => !it.item.1.isEmpty
    key := fun it => it.item.1
    value := fun it => it.item.2
    next := fun it => .ok (mtNext it) }

/-- `MemTable::scan`'s construction of the iterator: position on the
first entry of the (already filtered, sorted) range, sentinel if empty. -/
def mtIterFrom (entries : List (List Nat × List Nat)) : MemTableIterator :=
  match entries with
  | [] => { item := ([], []), rest := [] }
  | e :: rs => { item := e, rest := rs }

/-- The stream a consumer observes from a MergeIterator: `(key, value)`
read after `create` and after each successful `next()` while `is_valid`. -/
def mergeObservedPairs {σ : Type} (O : StorageIterOps σ) (fuel : Nat) :
    Nat → MergeIterator σ → List (List Nat × List Nat)
  | 0, _ => []
  | steps + 1, m =>
    if mergeIsValid O m then
      (mergeKey O m, mergeValue O m) ::
        (match mergeNext O fuel m with
         | .ok m' => mergeObservedPairs O fuel steps m'
         | .error _ => [])
    else []

/-- C1 counterexample sources: source 0 holds key `[2]`, source 1 holds
keys `[1]` and `[3]`; each source is sorted strictly ascending with no
internal duplicates. -/
def c1Sources : List MemTableIterator :=
  [mtIterFrom [([2], [20])], mtIterFrom [([1], [10]), ([3], [30])]]

/-- C1.  Evaluating `MergeIterator` on two individually sorted,
duplicate-free sources yields the key sequence `[1], [3], [2]`, which is
not strictly increasing: after emitting `[1]` the code advances
`current` without comparing it against the heap top (the compare-and-swap
step is missing from `next`), so source 1's key `[3]` is emitted before
source 0's key `[2]`, violating both the claim and the code's own
`debug_assert!(.. , "heap invariant violated")`. -/
theorem merge_emits_out_of_order_keys :
    (mergeObservedPairs mtIterOps 8 8 (mergeCreate mtIterOps c1Sources)).map Prod.fst
        = [[1], [3], [2]]
      ∧ ¬ List.Pairwise lexLt
        ((mergeObservedPairs mtIterOps 8 8 (mergeCreate mtIterOps c1Sources)).map
          Prod.fst) := by
  constructor
  · decide
  · decide

/-- C2 counterexample sources: both sources hold key `[2]`; source 0
(the most recent) maps it to `[99]`, source 1 maps it to `[11]`. -/
def c2Sources : List MemTableIterator :=
  [mtIterFrom [([2], [99])], mtIterFrom [([1], [10]), ([2], [11])]]

/-- C2.  For key `[2]`, present in both sources, the merge emits the
value `[11]` of source 1 instead of the value `[99]` of the
lowest-index source 0: after emitting `[1]` the code advances source 1
onto its `[2]` entry and keeps it as `current` without comparing
priorities with the heap top, so the stale lower-priority value is
emitted. -/
theorem merge_emits_stale_value_for_duplicate_key :
    mergeObservedPairs mtIterOps 8 8 (mergeCreate mtIterOps c2Sources)
        = [([1], [10]), ([2], [11])]
      ∧ ((mergeObservedPairs mtIterOps 8 8 (mergeCreate mtIterOps c2Sources)).filter
          (fun p => p.1 == [2])).map Prod.snd = [[11]] := by
  constructor
  · decide
  · decide

/-! ## MemTable and engine coordinator (`src/mem_table.rs`, `src/lsm_storage.rs`)

The concurrent skip map is modelled by a key-sorted association list in
which `insert` supersedes an existing key, exactly the observable
semantics of `SkipMap::insert`; the model is single-threaded, matching
the sequential operation sequences the claims quantify over. -/

/-- `SkipMap::insert`: insert keeping the key order, replacing the value
when the key is already present. -/
def skipInsert (k v : List Nat) : List (List Nat × List Nat) → List (List Nat × List Nat)
  | [] => [(k, v)]
  | (k', v') :: rest =>
    if lexLt k k' then (k, v) :: (k', v') :: rest
    else if k = k' then (k, v) :: rest
    else (k', v') :: skipInsert k v rest

/-- `SkipMap::get`. -/
def skipGet (k : List Nat) : List (List Nat × List Nat) → Option (List Nat)
  | [] => none
  | (k', v') :: rest => if k = k' then some v' else skipGet k rest

/-- The `MemTable` struct: id, map, and the running
`approximate_size` counter (sum of key+value lengths ever inserted). -/
structure MemTable where
  id : Nat
  map : List (List Nat × List Nat)
  approximate_size : Nat
deriving DecidableEq, Repr

/-- `MemTable::create`. -/
def MemTable.create (id : Nat) : MemTable :=
  { id := id, map := [], approximate_size := 0 }

/-- `MemTable::put`: insert and bump the size counter by
`key.len() + value.len()`. -/
def MemTable.put (m : MemTable) (k v : List Nat) : MemTable :=
  { m with
    map := skipInsert k v m.map
    approximate_size := m.approximate_size + (k.length + v.length) }

/-- `MemTable::get`. -/
def MemTable.get (m : MemTable) (k : List Nat) : Option (List Nat) := skipGet k m.map

/-- The `LsmStorageState` snapshot.  SSTable contents are irrelevant to
the claims about this state (freeze only copies the field), so the
`sstables` map is carried as an id-keyed list of table ids. -/
structure LsmStorageState where
  memtable : MemTable
  immut_memtable : List MemTable
  l0_sstables : List Nat
  levels : List (Nat × List Nat)
  sstables : List (Nat × Nat)
deriving DecidableEq, Repr

/-- The mutable fields of `LsmStorageInner` the claims touch: the state
snapshot, the `next_sstable_id` counter, and the configured
`target_sst_size` threshold. -/
structure LsmStorageInner where
  state : LsmStorageState
  next_sstable_id : Nat
  target_sst_size : Nat
deriving DecidableEq, Repr

/-- Outcome of a write path: Rust `assert!` failures are `panicked`
(an unwind, not a returned value), `err` is a returned `Err(..)` (the
write paths never construct one), `ok` carries the new engine. -/
inductive WriteResult where
  | panicked (msg : String)
  | err (msg : String)
  | ok (engine : LsmStorageInner)
deriving DecidableEq, Repr

/-- Whether a `WriteResult` is a returned error value. -/
def WriteResult.isErr : WriteResult → Bool
  | .err _ => true
  | _ => false

/-- Whether a `WriteResult` is a successful return. -/
def WriteResult.isOk : WriteResult → Bool
  | .ok _ => true
  | _ => false

/-- `LsmStorageInner::next_sst_id` (`fetch_add`: returns the old value,
leaves the counter incremented). -/
def next_sst_id (e : LsmStorageInner) : Nat × LsmStorageInner :=
  (e.next_sstable_id, { e with next_sstable_id := e.next_sstable_id + 1 })

/-- `LsmStorageInner::freeze_memtable`: allocate a fresh id, install an
empty MemTable with it, move the old active MemTable to the front of the
immutable list, publish the new snapshot. -/
def freeze_memtable (e : LsmStorageInner) : LsmStorageInner :=
  let (new_memtable_id, e') := next_sst_id e
  let new_memtable := MemTable.create new_memtable_id
  { e' with
    state := { e'.state with
      memtable := new_memtable
      immut_memtable := e'.state.memtable :: e'.state.immut_memtable } }

/-- `LsmStorageInner::try_freeze_memtable`: freeze only if the observed
size exceeds the threshold and the re-read size still does (the re-read
coincides in this sequential model). -/
def try_freeze_memtable (e : LsmStorageInner) (size : Nat) : LsmStorageInner :=
  if size > e.target_sst_size then
    if e.state.memtable.approximate_size > e.target_sst_size then freeze_memtable e
    else e
  else e

/-- `LsmStorageInner::put`: assert non-empty key and value, write into
the active MemTable, then check the freeze threshold. -/
def LsmStorageInner.put (e : LsmStorageInner) (k v : List Nat) : WriteResult :=
  if k.isEmpty then .panicked "key cannot be empty"
  else if v.isEmpty then .panicked "value cannot be empty"
  else
    let m := e.state.memtable.put k v
    let e' := { e with state := { e.state with memtable := m } }
    .ok (try_freeze_memtable e' m.approximate_size)

/-- `LsmStorageInner::delete`: assert non-empty key, write the
zero-length tombstone, then check the freeze threshold. -/
def LsmStorageInner.delete (e : LsmStorageInner) (k : List Nat) : WriteResult :=
  if k.isEmpty then .panicked "key cannot be empty"
  else
    let m := e.state.memtable.put k []
    let e' := { e with state := { e.state with memtable := m } }
    .ok (try_freeze_memtable e' m.approximate_size)

/-- The `for memtable in snapshot.immut_memtable.iter()` loop of
`LsmStorageInner::get`: first hit wins, a tombstone resolves to `none`. -/
def getFromMemtables (k : List Nat) : List MemTable → Option (List Nat)
  | [] => none
  | m :: ms =>
    match m.get k with
    | some v => if v.isEmpty then none else some v
    | none => getFromMemtables k ms

/-- `LsmStorageInner::get`: active MemTable first, then the immutable
ones newest-first; an empty (tombstone) value resolves to `none`. -/
def LsmStorageInner.get (e : LsmStorageInner) (k : List Nat) : Option (List Nat) :=
  match e.state.memtable.get k with
  | some v => if v.isEmpty then none else some v
  | none => getFromMemtables k e.state.immut_memtable

/-- A freshly opened engine: empty active MemTable with id 0 (built by
`MemTable::create`), nothing else, next table id 1. -/
def initEngine (target : Nat) : LsmStorageInner :=
  { state :=
      { memtable := MemTable.create 0
        immut_memtable := []
        l0_sstables := []
        levels := []
        sstables := [] }
    next_sstable_id := 1
    target_sst_size := target }

/-- C7.  `freeze_memtable` publishes a state whose active MemTable is a
freshly constructed empty MemTable carrying the newly allocated id, with
the old active MemTable prepended to the immutable list; `l0_sstables`,
`levels`, `sstables` and the configuration are untouched, and the only
other change is the id counter bump that the allocation itself is. -/
theorem freeze_publishes_fresh_memtable (e : LsmStorageInner) :
    (freeze_memtable e).state.memtable = MemTable.create e.next_sstable_id
      ∧ (freeze_memtable e).state.memtable.map = []
      ∧ (freeze_memtable e).state.memtable.id = e.next_sstable_id
      ∧ (freeze_memtable e).state.immut_memtable =
        e.state.memtable :: e.state.immut_memtable
      ∧ (freeze_memtable e).state.l0_sstables = e.state.l0_sstables
      ∧ (freeze_memtable e).state.levels = e.state.levels
      ∧ (freeze_memtable e).state.sstables = e.state.sstables
      ∧ (freeze_memtable e).next_sstable_id = e.next_sstable_id + 1
      ∧ (freeze_memtable e).target_sst_size = e.target_sst_size :=
  ⟨rfl, rfl, rfl, rfl, rfl, rfl, rfl, rfl, rfl⟩

/-- C5 counterexample.  `put` with an empty key does not return an
`InvalidArgument`-class error to the caller: it panics through
`assert!` (the claim as stated, an error value returned to the caller,
is false at this input). -/
theorem put_empty_key_panics_not_an_error :
    LsmStorageInner.put (initEngine 100) [] [5] = .panicked "key cannot be empty"
      ∧ (LsmStorageInner.put (initEngine 100) [] [5]).isErr = false :=
  ⟨rfl, rfl⟩

/-- C5 amended.  `put` with an empty key or an empty value and `delete`
with an empty key panic via `assert!` before touching the MemTable (no
error value is returned; the panic fires before any insertion, so the
MemTable is unchanged); every `put` with non-empty key and value and
every `delete` with a non-empty key is accepted. -/
theorem put_delete_reject_empty_by_panicking (e : LsmStorageInner) (k v : List Nat) :
    (k = [] → e.put k v = .panicked "key cannot be empty"
      ∧ e.delete k = .panicked "key cannot be empty")
      ∧ (k ≠ [] → v = [] → e.put k v = .panicked "value cannot be empty")
      ∧ (k ≠ [] → v ≠ [] → (e.put k v).isOk = true)
      ∧ (k ≠ [] → (e.delete k).isOk = true) := by
  refine ⟨?_, ?_, ?_, ?_⟩
  · intro hk
    subst hk
    exact ⟨rfl, rfl⟩
  · intro hk hv
    subst hv
    simp [LsmStorageInner.put, List.isEmpty_iff, hk]
  · intro hk hv
    simp [LsmStorageInner.put, List.isEmpty_iff, hk, hv, WriteResult.isOk]
  · intro hk
    simp [LsmStorageInner.delete, List.isEmpty_iff, hk, WriteResult.isOk]

/-- Witness for the amended C5 at concrete inputs. -/
theorem put_delete_reject_empty_by_panicking_witness :
    LsmStorageInner.put (initEngine 100) [1] [] = .panicked "value cannot be empty"
      ∧ (LsmStorageInner.put (initEngine 100) [1] [2]).isOk = true
      ∧ (LsmStorageInner.delete (initEngine 100) [1]).isOk = true :=
  ⟨(put_delete_reject_empty_by_panicking (initEngine 100) [1] []).2.1
      (by decide) rfl,
    (put_delete_reject_empty_by_panicking (initEngine 100) [1] [2]).2.2.1
      (by decide) (by decide),
    (put_delete_reject_empty_by_panicking (initEngine 100) [1] [2]).2.2.2
      (by decide)⟩

/-! ## Sequences of writes against one engine (C3) -/

/-- A write operation submitted to the engine. -/
inductive MemOp where
  | putOp (k v : List Nat)
  | delOp (k : List Nat)
deriving DecidableEq, Repr

/-- Dispatch one operation to the engine's write path. -/
def applyMemOp (e : LsmStorageInner) : MemOp → WriteResult
  | .putOp k v => e.put k v
  | .delOp k => e.delete k

/-- Run a sequence of operations, stopping at the first panic or error. -/
def applyMemOps (e : LsmStorageInner) : List MemOp → WriteResult
  | [] => .ok e
  | op :: ops =>
    match applyMemOp e op with
    | .ok e' => applyMemOps e' ops
    | .panicked m => .panicked m
    | .err m => .err m

/-- Bytes an operation adds to `approximate_size` (a delete stores the
key with the empty tombstone value). -/
def MemOp.size : MemOp → Nat
  | .putOp k v => k.length + v.length
  | .delOp k => k.length

/-- Total size charged by a sequence of operations. -/
def opsSize (ops : List MemOp) : Nat := (ops.map MemOp.size).sum

/-- Arguments accepted by the write path's assertions. -/
def ValidOp : MemOp → Prop
  | .putOp k v => k ≠ [] ∧ v ≠ []
  | .delOp k => k ≠ []

/-- The write an operation performs on key `k`, if any:
`some (some v)` for a put, `some none` for a delete. -/
def writeOf (k : List Nat) : MemOp → Option (Option (List Nat))
  | .putOp k' v => if k' = k then some (some v) else none
  | .delOp k' => if k' = k then some none else none

/-- The most recent write to `k` in `ops` (later operations win). -/
def lastWrite (k : List Nat) : List MemOp → Option (Option (List Nat))
  | [] => none
  | op :: rest =>
    match lastWrite k rest with
    | some w => some w
    | none => writeOf k op

/-- The bytes an operation actually inserts for its key. -/
def mapStep (m : List (List Nat × List Nat)) : MemOp → List (List Nat × List Nat)
  | .putOp k v => skipInsert k v m
  | .delOp k => skipInsert k [] m

/-- Pure effect of a sequence of operations on the skip map. -/
def mapApply (m : List (List Nat × List Nat)) : List MemOp → List (List Nat × List Nat)
  | [] => m
  | op :: ops => mapApply (mapStep m op) ops

theorem skipGet_skipInsert (k k' v : List Nat) (m : List (List Nat × List Nat)) :
    skipGet k (skipInsert k' v m) = if k = k' then some v else skipGet k m := by
  induction m with
  | nil => simp [skipInsert, skipGet]
  | cons p rest ih =>
    obtain ⟨pk, pv⟩ := p
    by_cases h1 : lexLt k' pk
    · simp [skipInsert, h1, skipGet]
    · by_cases h2 : k' = pk
      · subst h2
        by_cases h3 : k = k' <;> simp [skipInsert, h1, skipGet, h3]
      · by_cases h3 : k = pk
        · subst h3
          simp [skipInsert, h1, h2, skipGet, Ne.symm h2]
        · simp [skipInsert, h1, h2, skipGet, h3, ih]

theorem skipGet_mapApply (k : List Nat) (ops : List MemOp) :
    ∀ m, skipGet k (mapApply m ops) =
      match lastWrite k ops with
      | some w => some (w.getD [])
      | none => skipGet k m := by
  induction ops with
  | nil => intro m; simp [mapApply, lastWrite]
  | cons op rest ih =>
    intro m
    rw [mapApply, ih]
    cases hrest : lastWrite k rest with
    | some w => simp [lastWrite, hrest]
    | none =>
      simp only [lastWrite, hrest]
      cases op with
      | putOp k' v =>
        by_cases h : k' = k
        · subst h
          simp [mapStep, writeOf, skipGet_skipInsert]
        · have h' : ¬ k = k' := fun hh => h hh.symm
          simp [mapStep, writeOf, h, skipGet_skipInsert, h']
      | delOp k' =>
        by_cases h : k' = k
        · subst h
          simp [mapStep, writeOf, skipGet_skipInsert]
        · have h' : ¬ k = k' := fun hh => h hh.symm
          simp [mapStep, writeOf, h, skipGet_skipInsert, h']

theorem lastWrite_put_nonempty (k v : List Nat) (ops : List MemOp)
    (hvalid : ∀ op ∈ ops, ValidOp op) (h : lastWrite k ops = some (some v)) :
    v ≠ [] := by
  induction ops with
  | nil => simp [lastWrite] at h
  | cons op rest ih =>
    simp only [lastWrite] at h
    cases hrest : lastWrite k rest with
    | some w =>
      rw [hrest] at h
      have hw : some w = some (some v) := h
      exact ih (fun o ho => hvalid o (List.mem_cons_of_mem op ho))
        (by rw [hrest]; exact hw)
    | none =>
      rw [hrest] at h
      cases op with
      | putOp k' v' =>
        have hv' := (hvalid _ (List.mem_cons_self _ _)).2
        by_cases hk : k' = k
        · simp [writeOf, hk] at h
          subst h
          exact hv'
        · simp [writeOf, hk] at h
      | delOp k' =>
        by_cases hk : k' = k <;> simp [writeOf, hk] at h

/-- Under the size budget no freeze fires and a run of valid operations
is one pure fold over the active MemTable's map. -/
theorem applyMemOps_no_freeze (ops : List MemOp) :
    ∀ e : LsmStorageInner, (∀ op ∈ ops, ValidOp op) →
      e.state.memtable.approximate_size + opsSize ops ≤ e.target_sst_size →
      applyMemOps e ops = .ok
        { e with state := { e.state with memtable :=
          { e.state.memtable with
            map := mapApply e.state.memtable.map ops
            approximate_size := e.state.memtable.approximate_size + opsSize ops } } } := by
  induction ops with
  | nil =>
    intro e _ _
    simp only [applyMemOps, mapApply, opsSize, List.map_nil, List.sum_nil, Nat.add_zero]
  | cons op rest ih =>
    intro e hvalid hsz
    have hopsz : opsSize (op :: rest) = op.size + opsSize rest := by
      simp [opsSize]
    cases op with
    | putOp k v =>
      have hk : k.isEmpty = false := by
        have := (hvalid _ (List.mem_cons_self _ _)).1
        simpa [List.isEmpty_iff] using this
      have hv : v.isEmpty = false := by
        have := (hvalid _ (List.mem_cons_self _ _)).2
        simpa [List.isEmpty_iff] using this
      have hszr : e.state.memtable.approximate_size + (k.length + v.length) +
          opsSize rest ≤ e.target_sst_size := by
        rw [hopsz] at hsz
        simp only [MemOp.size] at hsz
        omega
      have hnof : ¬ (e.state.memtable.put k v).approximate_size > e.target_sst_size := by
        simp only [MemTable.put]
        omega
      have hih := ih { e with state := { e.state with memtable := e.state.memtable.put k v } }
        (fun o ho => hvalid o (List.mem_cons_of_mem _ ho))
        (by simp only [MemTable.put]; omega)
      simp only [applyMemOps, applyMemOp, LsmStorageInner.put, hk, hv,
        Bool.false_eq_true, if_false, try_freeze_memtable, hnof, if_false]
      rw [hih]
      simp only [MemTable.put, mapApply, mapStep, hopsz, MemOp.size, Nat.add_assoc]
    | delOp k =>
      have hk : k.isEmpty = false := by
        have := hvalid _ (List.mem_cons_self _ _)
        simpa [List.isEmpty_iff] using this
      have hszr : e.state.memtable.approximate_size + k.length +
          opsSize rest ≤ e.target_sst_size := by
        rw [hopsz] at hsz
        simp only [MemOp.size] at hsz
        omega
      have hnof : ¬ (e.state.memtable.put k []).approximate_size > e.target_sst_size := by
        simp only [MemTable.put]
        simp only [List.length_nil]
        omega
      have hih := ih { e with state := { e.state with memtable := e.state.memtable.put k [] } }
        (fun o ho => hvalid o (List.mem_cons_of_mem _ ho))
        (by simp only [MemTable.put]; simp only [List.length_nil]; omega)
      simp only [applyMemOps, applyMemOp, LsmStorageInner.delete, hk,
        Bool.false_eq_true, if_false, try_freeze_memtable, hnof, if_false]
      rw [hih]
      simp only [MemTable.put, mapApply, mapStep, hopsz, MemOp.size, List.length_nil,
        Nat.add_zero, Nat.add_assoc]

/-- C3.  For every sequence of accepted put/delete operations that stays
under the freeze threshold (all writes land in the single active
MemTable), `get(key)` on the resulting engine returns the value of the
most recent put if that is the latest write to the key, `none` if the
latest write was a delete, and `none` for a never-written key. -/
theorem get_returns_most_recent_write (ops : List MemOp) (k : List Nat) (target : Nat)
    (hvalid : ∀ op ∈ ops, ValidOp op)
    (hsz : opsSize ops ≤ target)
    (e : LsmStorageInner) (he : applyMemOps (initEngine target) ops = .ok e) :
    e.get k = (lastWrite k ops).bind (fun w => w) := by
  have happ := applyMemOps_no_freeze ops (initEngine target) hvalid
    (by simpa [initEngine, MemTable.create] using hsz)
  rw [happ] at he
  have he' := (WriteResult.ok.injEq _ _).mp he.symm
  subst he'
  simp only [LsmStorageInner.get, MemTable.get, initEngine, MemTable.create]
  rw [skipGet_mapApply]
  cases hlast : lastWrite k ops with
  | none => simp [skipGet, getFromMemtables]
  | some w =>
    cases w with
    | none => simp
    | some v =>
      have hv := lastWrite_put_nonempty k v ops hvalid hlast
      simp [List.isEmpty_iff, hv]

/-- Witness for C3: `put [1] [7]; put [2] [9]; del [1]; put [2] [5]`
leaves `get [1] = none` and `get [2] = some [5]`. -/
theorem get_returns_most_recent_write_witness :
    opsSize [MemOp.putOp [1] [7], MemOp.putOp [2] [9], MemOp.delOp [1],
        MemOp.putOp [2] [5]] ≤ 100
      ∧ (match applyMemOps (initEngine 100) [MemOp.putOp [1] [7], MemOp.putOp [2] [9],
          MemOp.delOp [1], MemOp.putOp [2] [5]] with
        | .ok e => e.get [1] = none ∧ e.get [2] = some [5]
        | _ => False) := by
  refine ⟨by decide, ?_⟩
  have h1 := get_returns_most_recent_write
    [MemOp.putOp [1] [7], MemOp.putOp [2] [9], MemOp.delOp [1], MemOp.putOp [2] [5]]
    [1] 100 (by intro op hop; fin_cases hop <;> simp [ValidOp]) (by decide)
  have h2 := get_returns_most_recent_write
    [MemOp.putOp [1] [7], MemOp.putOp [2] [9], MemOp.delOp [1], MemOp.putOp [2] [5]]
    [2] 100 (by intro op hop; fin_cases hop <;> simp [ValidOp]) (by decide)
  have hok : (applyMemOps (initEngine 100) [MemOp.putOp [1] [7], MemOp.putOp [2] [9],
      MemOp.delOp [1], MemOp.putOp [2] [5]]).isOk = true := by decide
  cases hres : applyMemOps (initEngine 100) [MemOp.putOp [1] [7], MemOp.putOp [2] [9],
      MemOp.delOp [1], MemOp.putOp [2] [5]] with
  | ok e => exact ⟨by rw [h1 e hres]; decide, by rw [h2 e hres]; decide⟩
  | panicked m =>
    rw [hres] at hok
    simp [WriteResult.isOk] at hok
  | err m =>
    rw [hres] at hok
    simp [WriteResult.isOk] at hok

/-! ## LsmIterator and FusedIterator (`src/lsm_iterator.rs`) -/

/-- `LsmIterator`, wrapping `MergeIterator<MemTableIterator>`. -/
structure LsmIterator where
  inner : MergeIterator MemTableIterator

/-- `LsmIterator::is_valid`. -/
def lsmIsValid (l : LsmIterator) : Bool := mergeIsValid mtIterOps l.inner

/-- `LsmIterator::key`. -/
def lsmKey (l : LsmIterator) : List Nat := mergeKey mtIterOps l.inner

/-- `LsmIterator::value`. -/
def lsmValue (l : LsmIterator) : List Nat := mergeValue mtIterOps l.inner

/-- `LsmIterator::move_to_non_delete`: skip forward while valid and the
current value is the zero-length tombstone. -/
def moveToNonDelete : Nat → LsmIterator → Except String LsmIterator
  | 0, _ => .error "tombstone loop fuel exhausted"
  | fuel + 1, l =>
    if lsmIsValid l && (lsmValue l).isEmpty then
      match mergeNext mtIterOps (fuel + 1) l.inner with
      | .error e => .error e
      | .ok m => moveToNonDelete fuel { inner := m }
    else .ok l

/-- `LsmIterator::new`: wrap and immediately skip tombstones. -/
def lsmNew (fuel : Nat) (m : MergeIterator MemTableIterator) : Except String LsmIterator :=
  moveToNonDelete fuel { inner := m }

/-- `LsmIterator::next`: advance the merge, then skip tombstones. -/
def lsmNext (fuel : Nat) (l : LsmIterator) : Except String LsmIterator :=
  match mergeNext mtIterOps fuel l.inner with
  | .error e => .error e
  | .ok m => moveToNonDelete fuel { inner := m }

/-- The `FusedIterator` guard. -/
structure FusedIterator (σ : Type) where
  iter : σ
  has_errored : Bool

/-- `FusedIterator::new`. -/
def FusedIterator.new {σ : Type} (it : σ) : FusedIterator σ :=
  { iter := it, has_errored := false }

/-- `FusedIterator::next`: error immediately when tainted; advance the
inner iterator only when it is valid, setting the taint flag when the
inner `next` fails.  Returns the call's result and the new guard state. -/
def fusedNext {σ : Type} (O : StorageIterOps σ) (f : FusedIterator σ) :
    Except String Unit × FusedIterator σ :=
  if f.has_errored then (.error "the iterator is tainted", f)
  else if O.is_valid f.iter then
    match O.next f.iter with
    | .error e => (.error e, { f with has_errored := true })
    | .ok s => (.ok (), { f with iter := s })
  else (.ok (), f)

/-- `FusedIterator::key`: `none` models the
`panic!("invalid access to the underlying iterator")` branch. -/
def fusedKey {σ : Type} (O : StorageIterOps σ) (f : FusedIterator σ) : Option (List Nat) :=
  if f.has_errored || !(O.is_valid f.iter) then none else some (O.key f.iter)

/-- `FusedIterator::value`, with `none` for the panicking branch. -/
def fusedValue {σ : Type} (O : StorageIterOps σ) (f : FusedIterator σ) : Option (List Nat) :=
  if f.has_errored || !(O.is_valid f.iter) then none else some (O.value f.iter)

/-- `FusedIterator::is_valid`. -/
def fusedIsValid {σ : Type} (O : StorageIterOps σ) (f : FusedIterator σ) : Bool :=
  !f.has_errored && O.is_valid f.iter

/-- Iterate `fusedNext`'s state `n` times. -/
def fusedStepN {σ : Type} (O : StorageIterOps σ) : Nat → FusedIterator σ → FusedIterator σ
  | 0, f => f
  | n + 1, f => fusedStepN O n (fusedNext O f).2

theorem fusedNext_tainted {σ : Type} (O : StorageIterOps σ) (g : FusedIterator σ)
    (hg : g.has_errored = true) :
    fusedNext O g = (.error "the iterator is tainted", g) := by
  simp [fusedNext, hg]

/-- C9.  Once one `next()` call on the guard returns an error the guard
is permanently tainted: every later `next()` returns the taint error
immediately with the state (hence the inner iterator) untouched,
`is_valid` is false from that point on, and `key`/`value` access while
tainted — or on any invalid guard — panics instead of returning a
default. -/
theorem fused_iterator_taints_permanently (σ : Type) (O : StorageIterOps σ)
    (f : FusedIterator σ) (e : String) (h : (fusedNext O f).1 = .error e) :
    (fusedNext O f).2.has_errored = true
      ∧ (∀ n, fusedStepN O n (fusedNext O f).2 = (fusedNext O f).2)
      ∧ fusedNext O (fusedNext O f).2 =
        (.error "the iterator is tainted", (fusedNext O f).2)
      ∧ fusedIsValid O (fusedNext O f).2 = false
      ∧ fusedKey O (fusedNext O f).2 = none
      ∧ fusedValue O (fusedNext O f).2 = none
      ∧ (∀ g : FusedIterator σ, fusedIsValid O g = false →
        fusedKey O g = none ∧ fusedValue O g = none) := by
  have htaint : (fusedNext O f).2.has_errored = true := by
    by_cases hf : f.has_errored
    · simp [fusedNext, hf]
    · by_cases hv : O.is_valid f.iter
      · cases hn : O.next f.iter with
        | error e' => simp [fusedNext, hf, hv, hn]
        | ok s => simp [fusedNext, hf, hv, hn] at h
      · simp [fusedNext, hf, hv] at h
  have htaintNext : fusedNext O (fusedNext O f).2 =
      (.error "the iterator is tainted", (fusedNext O f).2) :=
    fusedNext_tainted O _ htaint
  refine ⟨htaint, ?_, htaintNext, ?_, ?_, ?_, ?_⟩
  · intro n
    induction n with
    | zero => rfl
    | succ m ih =>
      rw [fusedStepN, htaintNext, ih]
  · simp [fusedIsValid, htaint]
  · simp [fusedKey, htaint]
  · simp [fusedValue, htaint]
  · intro g hg
    cases hh : g.has_errored with
    | true => exact ⟨by simp [fusedKey, hh], by simp [fusedValue, hh]⟩
    | false =>
      have hv : O.is_valid g.iter = false := by
        simpa [fusedIsValid, hh] using hg
      exact ⟨by simp [fusedKey, hh, hv], by simp [fusedValue, hh, hv]⟩

/-- Always-failing inner iterator used as the C9 witness instance. -/
def failOps : StorageIterOps Unit :=
  { is_valid := fun _ => true
    key := fun _ => [1]
    value := fun _ => [2]
    next := fun _ => .error "boom" }

/-- Witness for C9 at a concrete failing inner iterator. -/
theorem fused_iterator_taints_permanently_witness :
    (fusedNext failOps (FusedIterator.new ())).1 = Except.error "boom"
      ∧ fusedIsValid failOps (fusedNext failOps (FusedIterator.new ())).2 = false :=
  ⟨rfl,
    (fused_iterator_taints_permanently Unit failOps (FusedIterator.new ()) "boom"
      rfl).2.2.2.1⟩

/-! ## Engine scan (`LsmStorageInner::scan`) and the C4 pipeline -/

/-- `std::ops::Bound` on byte-string keys. -/
inductive KeyBound where
  | included (k : List Nat)
  | excluded (k : List Nat)
  | unbounded
deriving DecidableEq, Repr

/-- Lower-bound admission of a key, the semantics of the skip map's
`range` lower end. -/
def lowerOk (lo : KeyBound) (k : List Nat) : Bool :=
  match lo with
  | .unbounded => true
  | .included a => !(lexCmp k a == .lt)
  | .excluded a => lexCmp a k == .lt

/-- Upper-bound admission of a key. -/
def upperOk (hi : KeyBound) (k : List Nat) : Bool :=
  match hi with
  | .unbounded => true
  | .included b => !(lexCmp b k == .lt)
  | .excluded b => lexCmp k b == .lt

/-- `MemTable::scan`: iterator over the key-sorted entries within the
bounds, positioned on the first one. -/
def MemTable.scan (m : MemTable) (lo hi : KeyBound) : MemTableIterator :=
  mtIterFrom (m.map.filter (fun p => lowerOk lo p.1 && upperOk hi p.1))

/-- `LsmStorageInner::scan`: merge the active MemTable's iterator with
the immutable ones (newest first), wrap in the tombstone filter and the
fused guard. -/
def LsmStorageInner.scan (e : LsmStorageInner) (lo hi : KeyBound) (fuel : Nat) :
    Except String (FusedIterator LsmIterator) :=
  let iters := e.state.memtable.scan lo hi ::
    e.state.immut_memtable.map (fun m => m.scan lo hi)
  match lsmNew fuel (mergeCreate mtIterOps iters) with
  | .error msg => .error msg
  | .ok l => .ok (FusedIterator.new l)

/-- The `StorageIterator` impl of `LsmIterator` as consumed by the guard. -/
def lsmIterOps (fuel : Nat) : StorageIterOps LsmIterator :=
  { is_valid := lsmIsValid
    key := lsmKey
    value := lsmValue
    next := lsmNext fuel }

/-- What a consumer observes from the guarded scan iterator: `(key,
value)` pairs read while `is_valid`, advancing with `next`. -/
def scanObserved (fuel : Nat) : Nat → FusedIterator LsmIterator →
    List (List Nat × List Nat)
  | 0, _ => []
  | steps + 1, f =>
    if fusedIsValid (lsmIterOps fuel) f then
      ((fusedKey (lsmIterOps fuel) f).getD [], (fusedValue (lsmIterOps fuel) f).getD []) ::
        (match fusedNext (lsmIterOps fuel) f with
         | (.ok _, f') => scanObserved fuel steps f'
         | (.error _, _) => [])
    else []

/-- An operation submitted to the engine, including an explicit freeze. -/
inductive StorOp where
  | write (op : MemOp)
  | freezeOp
deriving DecidableEq, Repr

/-- Dispatch an engine operation. -/
def applyStorOp (e : LsmStorageInner) : StorOp → WriteResult
  | .write op => applyMemOp e op
  | .freezeOp => .ok (freeze_memtable e)

/-- Run a sequence of engine operations. -/
def applyStorOps (e : LsmStorageInner) : List StorOp → WriteResult
  | [] => .ok e
  | op :: ops =>
    match applyStorOp e op with
    | .ok e' => applyStorOps e' ops
    | .panicked m => .panicked m
    | .err m => .err m

/-- Scan result of a write outcome (empty on panic/error, never hit in
the run below). -/
def scanPairsOf (r : WriteResult) (lo hi : KeyBound) (fuel steps : Nat) :
    List (List Nat × List Nat) :=
  match r with
  | .ok e =>
    match e.scan lo hi fuel with
    | .ok f => scanObserved fuel steps f
    | .error _ => []
  | _ => []

/-- C4 counterexample operations: write `[2]`, write `[1]`, freeze,
delete `[2]`. -/
def c4Ops : List StorOp :=
  [.write (.putOp [2] [5]), .write (.putOp [1] [7]), .freezeOp, .write (.delOp [2])]

/-- C4.  After `put [2] [5]; put [1] [7]; freeze; delete [2]` the most
recent write to key `[2]` is a delete, yet the full scan yields
`[2]` with its pre-delete value `[5]`: the merge (missing its
compare-and-swap step) keeps the older memtable's `([2], [5])` entry as
`current` and never consults the newer tombstone, so the tombstone
filter cannot suppress the key and consumers observe a deleted key. -/
theorem scan_observes_deleted_key :
    lastWrite [2] [MemOp.putOp [2] [5], MemOp.putOp [1] [7], MemOp.delOp [2]] = some none
      ∧ scanPairsOf (applyStorOps (initEngine 1000) c4Ops)
          .unbounded .unbounded 8 8 = [([1], [7]), ([2], [5])]
      ∧ [2] ∈ (scanPairsOf (applyStorOps (initEngine 1000) c4Ops)
          .unbounded .unbounded 8 8).map Prod.fst := by
  refine ⟨by decide, by decide, by decide⟩

/-! ## SsTable opening (`src/table.rs`)

`FileObject` is its byte contents; `read` models `read_exact_at`
(failing with an I/O error when the requested range passes the end of
the file).  The `u64`/`u32` arithmetic of `SsTable::open` wraps as in a
release build (in a debug build the underflow panics instead — either
way no format error results).  The error type carries a `fmtError`
constructor for the format-error class the spec names; the code never
constructs one. -/

inductive TableErr where
  | ioError (msg : String)
  | panicked (msg : String)
  | fmtError (msg : String)
deriving DecidableEq, Repr

structure BlockMeta where
  offset : Nat
  first_key : List Nat
  last_key : List Nat
deriving DecidableEq, Repr

structure FileObject where
  data : List Nat
deriving DecidableEq, Repr

/-- `FileObject::read` via `read_exact_at`. -/
def fileRead (f : FileObject) (offset len : Nat) : Except TableErr (List Nat) :=
  if offset + len ≤ f.data.length then .ok ((f.data.drop offset).take len)
  else .error (.ioError "read_exact_at: unexpected end of file")

/-- Wrapping `u64` subtraction (release-mode semantics of
`file_object.size() - 4` and of the meta-length computation). -/
def subU64 (a b : Nat) : Nat := (a + (2 ^ 64 - b % 2 ^ 64)) % 2 ^ 64

/-- Big-endian `u32` read at the head of a buffer (`Buf::get_u32`). -/
def be32At (data : List Nat) : Nat :=
  data.getD 0 0 * 2 ^ 24 + data.getD 1 0 * 2 ^ 16 + data.getD 2 0 * 2 ^ 8 + data.getD 3 0

/-- `BlockMeta::decode_block_meta`: the `while buf.has_remaining()` loop.
Each `get_u32`/`get_u16`/`copy_to_bytes` call panics (per the `bytes`
crate) when fewer bytes remain than it needs — which is exactly what
leftover trailing bytes produce. -/
def decode_block_meta (buf : List Nat) : Except TableErr (List BlockMeta) :=
  if buf.isEmpty then .ok []
  else if buf.length < 4 then .error (.panicked "get_u32: advance out of bounds")
  else if buf.length < 6 then .error (.panicked "get_u16: advance out of bounds")
  else if buf.length < 6 + be16At (buf.drop 4) then
    .error (.panicked "copy_to_bytes: out of bounds")
  else if buf.length < 8 + be16At (buf.drop 4) then
    .error (.panicked "get_u16: advance out of bounds")
  else if buf.length < 8 + be16At (buf.drop 4) +
      be16At (buf.drop (6 + be16At (buf.drop 4))) then
    .error (.panicked "copy_to_bytes: out of bounds")
  else
    match decode_block_meta (buf.drop (8 + be16At (buf.drop 4) +
        be16At (buf.drop (6 + be16At (buf.drop 4))))) with
    | .error e => .error e
    | .ok ms =>
      .ok ({ offset := be32At buf
             first_key := (buf.drop 6).take (be16At (buf.drop 4))
             last_key := (buf.drop (8 + be16At (buf.drop 4))).take
               (be16At (buf.drop (6 + be16At (buf.drop 4)))) } :: ms)
termination_by buf.length
decreasing_by
  simp only [List.length_drop]
  omega

/-- The fields of `SsTable` populated by `open`. -/
structure SsTable where
  block_meta : List BlockMeta
  block_meta_offset : Nat
  id : Nat
  first_key : List Nat
  last_key : List Nat
  file_size : Nat
deriving DecidableEq, Repr

/-- `SsTable::open`: read the 4-byte trailer at `size - 4`, read the
meta section `[meta_offset, size - 4)` (length truncated `as u32`),
decode it, and take first/last key from the first and last meta
(`first()/last().unwrap()`). -/
def ssTableOpen (f : FileObject) (id : Nat) : Except TableErr SsTable :=
  match fileRead f (subU64 f.data.length 4) 4 with
  | .error e => .error e
  | .ok raw =>
    match fileRead f (be32At raw) ((subU64 (subU64 f.data.length 4) (be32At raw)) % 2 ^ 32) with
    | .error e => .error e
    | .ok metas_raw =>
      match decode_block_meta metas_raw with
      | .error e => .error e
      | .ok [] => .error (.panicked "called unwrap on None")
      | .ok (m0 :: ms) =>
        .ok { block_meta := m0 :: ms
              block_meta_offset := be32At raw
              id := id
              first_key := m0.first_key
              last_key := ((m0 :: ms).getLast (by simp)).last_key
              file_size := f.data.length }

/-- C6 counterexample.  The 7-byte file `[1,2,3,0,0,0,0]` has a valid
4-byte trailer pointing at offset 0, leaving a 3-byte meta section —
trailing bytes that cannot form an entry.  `open` panics inside
`get_u32` instead of returning a format error, falsifying both the
format-error and the never-panics part of the claim. -/
theorem open_panics_on_leftover_meta_bytes :
    ssTableOpen { data := [1, 2, 3, 0, 0, 0, 0] } 0 =
      .error (.panicked "get_u32: advance out of bounds") := by
  have hdec : decode_block_meta [1, 2, 3] =
      .error (.panicked "get_u32: advance out of bounds") := by
    rw [decode_block_meta]
    simp
  rw [ssTableOpen]
  norm_num [fileRead, subU64, be32At, hdec]

theorem fileRead_err_shape (f : FileObject) (offset len : Nat) (e : TableErr)
    (h : fileRead f offset len = .error e) :
    e = .ioError "read_exact_at: unexpected end of file" := by
  rw [fileRead] at h
  split at h
  · exact absurd h (by simp)
  · simpa using h.symm

theorem decode_block_meta_err_panicked (buf : List Nat) (e : TableErr)
    (h : decode_block_meta buf = .error e) : ∃ m, e = .panicked m := by
  suffices H : ∀ n (b : List Nat), b.length ≤ n → ∀ e', decode_block_meta b = .error e' →
      ∃ m, e' = .panicked m from H buf.length buf le_rfl e h
  intro n
  induction n with
  | zero =>
    intro b hb e' h'
    have hbe : b = [] := List.length_eq_zero.mp (by omega)
    subst hbe
    rw [decode_block_meta] at h'
    simp at h'
  | succ m ih =>
    intro b hb e' h'
    rw [decode_block_meta] at h'
    split at h'
    · simp at h'
    · split at h'
      · exact ⟨_, by simpa using h'.symm⟩
      · split at h'
        · exact ⟨_, by simpa using h'.symm⟩
        · split at h'
          · exact ⟨_, by simpa using h'.symm⟩
          · split at h'
            · exact ⟨_, by simpa using h'.symm⟩
            · split at h'
              · exact ⟨_, by simpa using h'.symm⟩
              · split at h'
                · rename_i e'' heq
                  have he : e'' = e' := by simpa using h'
                  subst he
                  exact ih _ (by simp only [List.length_drop]; omega) _ heq
                · simp at h'

/-- C6 amended.  `SsTable::open` on a file shorter than 4 bytes fails
with an I/O error from the wrapped-around trailer read (in a debug build
the `size - 4` underflow panics instead) — not a format error; a meta
section with leftover trailing bytes makes decoding panic inside a
`bytes` accessor; and no input ever yields a format-error result,
because the code constructs none. -/
theorem open_short_file_io_error_and_never_format_error (f : FileObject) (id : Nat)
    (h : f.data.length < 4) :
    ssTableOpen f id = .error (.ioError "read_exact_at: unexpected end of file")
      ∧ decode_block_meta [1, 2, 3] = .error (.panicked "get_u32: advance out of bounds")
      ∧ (∀ (g : FileObject) (j : Nat) (msg : String),
        ssTableOpen g j ≠ .error (.fmtError msg)) := by
  refine ⟨?_, by rw [decode_block_meta]; simp, ?_⟩
  · have hN : (2 : Nat) ^ 64 = 18446744073709551616 := by norm_num
    have h4 : (4 : Nat) % 2 ^ 64 = 4 := by norm_num
    have hsub : subU64 f.data.length 4 = f.data.length + (2 ^ 64 - 4) := by
      rw [subU64, h4, Nat.mod_eq_of_lt]
      rw [hN] at *
      omega
    have hfail : ¬ (subU64 f.data.length 4 + 4 ≤ f.data.length) := by
      rw [hsub, hN]
      omega
    rw [ssTableOpen, fileRead, if_neg hfail]
  · intro g j msg hcontra
    rw [ssTableOpen] at hcontra
    cases h1 : fileRead g (subU64 g.data.length 4) 4 with
    | error e1 =>
      rw [h1] at hcontra
      have := fileRead_err_shape _ _ _ _ h1
      simp [this] at hcontra
    | ok raw =>
      rw [h1] at hcontra
      dsimp only at hcontra
      cases h2 : fileRead g (be32At raw)
          ((subU64 (subU64 g.data.length 4) (be32At raw)) % 2 ^ 32) with
      | error e2 =>
        rw [h2] at hcontra
        have := fileRead_err_shape _ _ _ _ h2
        simp [this] at hcontra
      | ok metas_raw =>
        rw [h2] at hcontra
        dsimp only at hcontra
        cases h3 : decode_block_meta metas_raw with
        | error e3 =>
          rw [h3] at hcontra
          obtain ⟨m, hm⟩ := decode_block_meta_err_panicked _ _ h3
          simp [hm] at hcontra
        | ok metas =>
          rw [h3] at hcontra
          cases metas with
          | nil => simp at hcontra
          | cons m0 ms => simp at hcontra

/-- Witness for the amended C6 at a concrete 2-byte file. -/
theorem open_short_file_io_error_and_never_format_error_witness :
    ssTableOpen { data := [1, 2] } 0 =
      .error (.ioError "read_exact_at: unexpected end of file") :=
  (open_short_file_io_error_and_never_format_error { data := [1, 2] } 0 (by decide)).1

end LsmDB
